import Mathlib

/-!
Verification of the markdown live-preview editor core (formatting engine,
multi-range orchestrator, decoration builder helpers, table parser and
table-widget grid operations), shallowly embedded from the TypeScript
source.  Text is modelled as `List Char`, document offsets as `Nat`
(zero-based), raw selection endpoints as `Int` (they may be negative or
out of range before normalization).
-/

set_option autoImplicit false

namespace Ognile

/-- Document text: a sequence of characters addressed by zero-based offsets. -/
abbrev Text := List Char

/-- Setting `ognile.formatting.emptySelectionBehavior`. -/
inductive EmptySelectionBehavior where
  | word
  | markers
deriving DecidableEq, Repr

/-- Setting `ognile.formatting.italicDelimiter`. -/
inductive ItalicDelimiter where
  | underscore
  | asterisk
deriving DecidableEq, Repr

/-- Interface `FormattingPreferences` from the source. -/
structure FormattingPreferences where
  emptySelectionBehavior : EmptySelectionBehavior
  italicDelimiter : ItalicDelimiter
deriving DecidableEq, Repr

/-- Type `FormatCommand = 'bold' | 'italic' | 'strikethrough' | 'link'`. -/
inductive FormatCommand where
  | bold
  | italic
  | strikethrough
  | link
deriving DecidableEq, Repr

/-- Interface `FormattingOptions` (optional link url / link text). -/
structure FormattingOptions where
  linkUrl : Option Text := none
  linkText : Option Text := none
deriving DecidableEq, Repr

/-- Interface `TextSelection {from, to}`: raw selection offsets, which may be
negative, reversed or beyond the text length before normalization (`from` is
a Lean keyword, hence the guillemets). -/
structure TextSelection where
  «from» : Int
  «to» : Int
deriving DecidableEq, Repr

/-- A selection range whose offsets are plain document offsets (the shape of
CodeMirror selection ranges and of every selection produced by the engine). -/
structure SelN where
  «from» : Nat
  «to» : Nat
deriving DecidableEq, Repr

/-- View of a `SelN` as a raw `TextSelection`. -/
def SelN.toSel (s : SelN) : TextSelection := ⟨(s.«from» : Int), (s.«to» : Int)⟩

/-- An edit descriptor `{from, to, insert}`: replace `text[from,to)` by
`insert`. -/
structure Change where
  «from» : Nat
  «to» : Nat
  insert : Text
deriving DecidableEq, Repr

/-- Result record of the formatting engine (`TextFormatResult`).  In the
source `change` is an optional field, but every construction of the record
supplies it, so it is modelled as a plain field. -/
structure TextFormatResult where
  text : Text
  selection : SelN
  changed : Bool
  change : Change
deriving DecidableEq, Repr

/-- Character class `[A-Za-z0-9_]` (`WORD_CHAR`), applied to a possibly
missing character as in `isWordChar(char: string | undefined)`. -/
def isWordChar : Option Char → Bool
  | none => false
  | some c => c.isAlphanum || c = '_'

/-- `clamp(value, min, max) = Math.max(min, Math.min(max, value))`. -/
def clamp (value lo hi : Int) : Int := max lo (min hi value)

/-- `normalizeSelection`: clamp both endpoints to `[0, maxLength]` and order
them. -/
def normalizeSelection (selection : TextSelection) (maxLength : Nat) : TextSelection :=
  let f := clamp selection.«from» 0 maxLength
  let t := clamp selection.«to» 0 maxLength
  if f ≤ t then ⟨f, t⟩ else ⟨t, f⟩

/-- `text.slice(f, t)` for offsets that are already non-negative (every call
site passes offsets previously clamped to `[0, text.length]`). -/
def slice (text : Text) (f t : Nat) : Text := (text.drop f).take (t - f)

/-- `replaceRange(text, from, to, replacement) =
text.slice(0, from) + replacement + text.slice(to)`. -/
def replaceRange (text : Text) (f t : Nat) (replacement : Text) : Text :=
  text.take f ++ replacement ++ text.drop t

/-- `text[i]`: the character at offset `i`, or `undefined` out of range. -/
def charAt (text : Text) (i : Nat) : Option Char := text.get? i

/-- Loop `while (from > 0 && isWordChar(text[from - 1])) from -= 1`. -/
def scanWordLeft (text : Text) : Nat → Nat
  | 0 => 0
  | f + 1 => if isWordChar (charAt text f) then scanWordLeft text f else f + 1

/-- Body of the loop `while (to < text.length && isWordChar(text[to])) to += 1`,
with a structural fuel that bounds the remaining iterations (the loop adds 1
to `t` only while `t < text.length`, so a fuel of `text.length - t` never
runs out). -/
def scanWordRightGo (text : Text) : Nat → Nat → Nat
  | 0, t => t
  | fuel + 1, t =>
    if t < text.length ∧ isWordChar (charAt text t) = true then
      scanWordRightGo text fuel (t + 1)
    else t

/-- Loop `while (to < text.length && isWordChar(text[to])) to += 1`. -/
def scanWordRight (text : Text) (t : Nat) : Nat :=
  scanWordRightGo text (text.length - t) t

/-- `expandSelectionToWord(text, pos)`: expand a caret to the maximal run of
word characters containing or adjacent to it (`null` when there is none). -/
def expandSelectionToWord (text : Text) (pos : Nat) : Option SelN :=
  if text.length = 0 then none
  else
    -- `clamp(pos, 0, text.length)` for a non-negative `pos`
    let pivot := min pos text.length
    if pivot < text.length ∧ isWordChar (charAt text pivot) then
      some ⟨scanWordLeft text pivot, scanWordRight text (pivot + 1)⟩
    else if 0 < pivot ∧ isWordChar (charAt text (pivot - 1)) then
      -- `pivot -= 1`, then `from = pivot`, `to = pivot + 1`, then both scans
      some ⟨scanWordLeft text (pivot - 1), scanWordRight text pivot⟩
    else none

/-- `resolveTargetSelection`: normalize, then (only for an empty selection
under the `"word"` policy) try to expand to a word.  The normalized endpoints
lie in `[0, text.length]`, so they are returned as plain `Nat` offsets. -/
def resolveTargetSelection (text : Text) (selection : TextSelection)
    (preferences : FormattingPreferences) : SelN :=
  let n := normalizeSelection selection text.length
  let nf := n.«from».toNat
  let nt := n.«to».toNat
  if nf ≠ nt then ⟨nf, nt⟩
  else if preferences.emptySelectionBehavior = .word then
    (expandSelectionToWord text nf).getD ⟨nf, nt⟩
  else ⟨nf, nt⟩

/-- `isWrappedSelection(selected, marker)`: the selected text itself starts
and ends with `marker` (and, for a single-character marker, is not part of a
doubled marker on either side). -/
def isWrappedSelection (selected marker : Text) : Bool :=
  if selected.length < marker.length * 2 then false
  else if ¬(marker.isPrefixOf selected ∧ marker.isSuffixOf selected) then false
  else if marker.length = 1 then
    let repeated := marker ++ marker
    if repeated.isPrefixOf selected ∨ repeated.isSuffixOf selected then false
    else true
  else true

/-- `hasSurroundingMarkers(text, from, to, marker)`: `marker` immediately
surrounds `[from,to)` in the full text (and, for a single-character marker,
is not doubled just outside).  `text[from - marker.length - 1]` is
`undefined` when the index is negative, modelled by `none`. -/
def hasSurroundingMarkers (text : Text) (f t : Nat) (marker : Text) : Bool :=
  if f < marker.length ∨ t + marker.length > text.length then false
  else
    let «before» := slice text (f - marker.length) f
    let «after» := slice text t (t + marker.length)
    if ¬(«before» = marker ∧ «after» = marker) then false
    else if marker.length = 1 then
      let beforeBefore : Option Char :=
        if marker.length + 1 ≤ f then charAt text (f - marker.length - 1) else none
      let afterAfter : Option Char := charAt text (t + marker.length)
      if beforeBefore = marker.head? ∨ afterAfter = marker.head? then false
      else true
    else true

/-- `formatMarker(text, selection, marker, preferences)`: toggle an inline
marker pair around the target selection. -/
def formatMarker (text : Text) (selection : TextSelection) (marker : Text)
    (preferences : FormattingPreferences) : TextFormatResult :=
  let target := resolveTargetSelection text selection preferences
  let selected := slice text target.«from» target.«to»
  if target.«from» = target.«to» then
    let insertion := marker ++ marker
    let updated := replaceRange text target.«from» target.«to» insertion
    let caret := target.«from» + marker.length
    { text := updated
      selection := ⟨caret, caret⟩
      changed := decide (updated ≠ text)
      change := ⟨target.«from», target.«to», insertion⟩ }
  else if isWrappedSelection selected marker then
    let inner := slice selected marker.length (selected.length - marker.length)
    let updated := replaceRange text target.«from» target.«to» inner
    { text := updated
      selection := ⟨target.«from», target.«from» + inner.length⟩
      changed := decide (updated ≠ text)
      change := ⟨target.«from», target.«to», inner⟩ }
  else if hasSurroundingMarkers text target.«from» target.«to» marker then
    let start := target.«from» - marker.length
    let stop := target.«to» + marker.length
    let updated := replaceRange text start stop selected
    { text := updated
      selection := ⟨start, start + selected.length⟩
      changed := decide (updated ≠ text)
      change := ⟨start, stop, selected⟩ }
  else
    let wrapped := marker ++ selected ++ marker
    let updated := replaceRange text target.«from» target.«to» wrapped
    { text := updated
      selection := ⟨target.«from» + marker.length, target.«to» + marker.length⟩
      changed := decide (updated ≠ text)
      change := ⟨target.«from», target.«to», wrapped⟩ }

/-- Matcher for the regex `^\[([^\]]+)\]\(([^\n)]+)\)$` used by
`tryUnwrapFullLink`; returns the label on a match.  The character classes
exclude the closing delimiters, so the regex match is forced: the label is
everything up to the first `]` and the url everything up to the first `)` or
newline, with the final `)` required to end the string. -/
def tryUnwrapFullLink (selectionText : Text) : Option Text :=
  match selectionText with
  | '[' :: rest =>
    let label := rest.takeWhile (· != ']')
    if label = [] then none
    else
      match rest.dropWhile (· != ']') with
      | ']' :: '(' :: rest2 =>
        let url := rest2.takeWhile (fun c => c != ')' && c != '\n')
        if url = [] then none
        else
          match rest2.dropWhile (fun c => c != ')' && c != '\n') with
          | [')'] => some label
          | _ => none
      | _ => none
  | _ => none

/-- Search loop of `text.indexOf(pat, start)`, with a structural fuel that
bounds the remaining iterations (the search advances only while
`start ≤ text.length`, so a fuel of `text.length + 1 - start` never runs
out). -/
def indexOfFromGo (text pat : Text) : Nat → Nat → Option Nat
  | 0, _ => none
  | fuel + 1, start =>
    if start + pat.length ≤ text.length then
      if pat.isPrefixOf (text.drop start) then some start
      else indexOfFromGo text pat fuel (start + 1)
    else none

/-- `text.indexOf(pat, start)` for a non-empty needle: the first offset
`≥ start` where `pat` occurs, `none` (`-1` in the source) when absent. -/
def indexOfFrom (text pat : Text) (start : Nat) : Option Nat :=
  indexOfFromGo text pat (text.length + 1 - start) start

/-- `tryUnwrapLinkAroundSelection(text, selection)`: the selection is the
label of a surrounding `[label](url)`; unwrap outward to the bare label. -/
def tryUnwrapLinkAroundSelection (text : Text) (selection : SelN) :
    Option TextFormatResult :=
  if selection.«from» = 0 ∨ charAt text (selection.«from» - 1) ≠ some '[' then none
  else
    match indexOfFrom text [']', '('] selection.«to» with
    | none => none  -- labelEnd = -1 ≠ selection.«to»
    | some labelEnd =>
      if labelEnd ≠ selection.«to» then none
      else
        match indexOfFrom text [')'] (labelEnd + 2) with
        | none => none  -- urlEnd === -1
        | some urlEnd =>
          let label := slice text selection.«from» selection.«to»
          let updated := replaceRange text (selection.«from» - 1) (urlEnd + 1) label
          some { text := updated
                 selection := ⟨selection.«from» - 1, selection.«from» - 1 + label.length⟩
                 changed := decide (updated ≠ text)
                 change := ⟨selection.«from» - 1, urlEnd + 1, label⟩ }

/-- `formatLink(text, selection, preferences, options)`. -/
def formatLink (text : Text) (selection : TextSelection)
    (preferences : FormattingPreferences) (options : FormattingOptions) :
    TextFormatResult :=
  let target := resolveTargetSelection text selection preferences
  let selected := slice text target.«from» target.«to»
  match tryUnwrapFullLink selected with
  | some fullyWrapped =>
    let updated := replaceRange text target.«from» target.«to» fullyWrapped
    { text := updated
      selection := ⟨target.«from», target.«from» + fullyWrapped.length⟩
      changed := decide (updated ≠ text)
      change := ⟨target.«from», target.«to», fullyWrapped⟩ }
  | none =>
    match tryUnwrapLinkAroundSelection text target with
    | some surrounding => surrounding
    | none =>
      let url := options.linkUrl.getD "https://".toList
      if target.«from» = target.«to» then
        let label := options.linkText.getD "link text".toList
        let markdown := ['['] ++ label ++ [']', '('] ++ url ++ [')']
        let updated := replaceRange text target.«from» target.«to» markdown
        { text := updated
          selection := ⟨target.«from» + 1, target.«from» + 1 + label.length⟩
          changed := decide (updated ≠ text)
          change := ⟨target.«from», target.«to», markdown⟩ }
      else
        let markdown := ['['] ++ selected ++ [']', '('] ++ url ++ [')']
        let updated := replaceRange text target.«from» target.«to» markdown
        { text := updated
          selection := ⟨target.«from» + 1, target.«from» + 1 + selected.length⟩
          changed := decide (updated ≠ text)
          change := ⟨target.«from», target.«to», markdown⟩ }

/-- Characters removed by JavaScript `String.prototype.trim` (WhiteSpace and
LineTerminator code points). -/
def isJsSpace (c : Char) : Bool :=
  decide (c = ' ' ∨ c = '\t' ∨ c = '\n' ∨ c = '\r' ∨ c = '\x0b' ∨ c = '\x0c' ∨
    c = ' ' ∨ c = ' ' ∨ (' ' ≤ c ∧ c ≤ ' ') ∨
    c = ' ' ∨ c = ' ' ∨ c = ' ' ∨ c = ' ' ∨ c = '　' ∨
    c = '﻿')

/-- `s.trim()`. -/
def trim (s : Text) : Text :=
  ((s.dropWhile isJsSpace).reverse.dropWhile isJsSpace).reverse

/-- Column alignment of a table cell. -/
inductive Alignment where
  | left
  | center
  | right
deriving DecidableEq, Repr

/-- `parseTableRow(line)`: trim the line, strip one leading and one trailing
pipe, split at the remaining pipes and trim every cell. -/
def parseTableRow (line : Text) : List Text :=
  let t1 := trim line
  let t2 := if t1.head? = some '|' then t1.drop 1 else t1
  let t3 := if t2.getLast? = some '|' then t2.dropLast else t2
  (t3.splitOn '|').map trim

/-- Matcher for the alignment-cell regex `^:?-+:?$`: an optional leading
colon, one or more dashes, an optional trailing colon.  The character classes
leave the regex no backtracking freedom, so the match is forced. -/
def isAlignCell (s : Text) : Bool :=
  let s1 := match s with
    | ':' :: r => r
    | r => r
  let rest := s1.dropWhile (· == '-')
  decide (s1.takeWhile (· == '-') ≠ [] ∧ (rest = [] ∨ rest = [':']))

/-- The Table Model produced by the table parser. -/
structure TableModel where
  headers : List Text
  rows : List (List Text)
  alignments : List Alignment
deriving DecidableEq, Repr

/-- `parseTableText(text)`: split into non-blank lines; the first line is the
header row, the second must be a valid alignment row (every cell matching
`^:?-+:?$`), the remaining lines are the data rows. -/
def parseTableText (text : Text) : Option TableModel :=
  let lines := (text.splitOn '\n').filter (fun l => 0 < (trim l).length)
  match lines with
  | line0 :: line1 :: restLines =>
    let headers := parseTableRow line0
    if headers.length = 0 then none
    else
      let alignRow := parseTableRow line1
      if alignRow.all (fun cell => isAlignCell (trim cell)) then
        let alignments := alignRow.map (fun cell =>
          let c := trim cell
          if c.head? = some ':' ∧ c.getLast? = some ':' then Alignment.center
          else if c.getLast? = some ':' then Alignment.right
          else Alignment.left)
        let rows := restLines.map parseTableRow
        some ⟨headers, rows, alignments⟩
      else none
  | _ => none

/-- `isRangeSelected(selectionRanges, from, to)`: the decoration builder's
selection-overlap test for a candidate node range `[from,to]`. -/
def isRangeSelected (selectionRanges : List SelN) (f t : Nat) : Bool :=
  selectionRanges.any fun range =>
    let cursorPos := range.«from»
    if f ≤ cursorPos ∧ cursorPos ≤ t then true
    else if range.«from» ≠ range.«to» then
      let selFrom := min range.«from» range.«to»
      let selTo := max range.«from» range.«to»
      decide (selFrom < t ∧ f < selTo)
    else false

/-- Start offset of the line containing offset `p` (`doc.lineAt(p).from`). -/
def lineStart (text : Text) : Nat → Nat
  | 0 => 0
  | p + 1 => if charAt text p = some '\n' then p + 1 else lineStart text p

/-- Scan for the end of the line containing `p`, with a structural fuel that
bounds the remaining iterations (the scan advances only while
`p < text.length`, so a fuel of `text.length - p` never runs out). -/
def lineEndGo (text : Text) : Nat → Nat → Nat
  | 0, _ => text.length
  | fuel + 1, p =>
    if p < text.length then
      if charAt text p = some '\n' then p else lineEndGo text fuel (p + 1)
    else text.length

/-- End offset of the line containing offset `p` (`doc.lineAt(p).to`, the
offset of the terminating newline or of the end of the document). -/
def lineEnd (text : Text) (p : Nat) : Nat :=
  lineEndGo text (text.length - p) p

/-- `blockEnd(doc, from, to)`: clamp `to` to the document length and, when it
falls exactly on a line start (the parser included the trailing newline),
step back one position. -/
def blockEnd (text : Text) (f t : Nat) : Nat :=
  let safeTo := min t text.length
  if f < safeTo ∧ lineStart text safeTo = safeTo then safeTo - 1 else safeTo

/-- The `Table` arm of `buildDecorations`: for a syntax node named `Table`
spanning `[f,t]`, emit a block widget replacing the block's full lines iff
the node is not selection-overlapped and its text parses as a table.  The
result carries the replaced range and the parsed Table Model handed to
`TableWidget`. -/
def buildTableDecoration (text : Text) (sel : List SelN) (f t : Nat) :
    Option (Nat × Nat × TableModel) :=
  if isRangeSelected sel f t then none
  else
    -- `end := blockEnd(...)`, `firstLine.from = lineStart text f`,
    -- `lastLine.to = lineEnd text end`
    match parseTableText
        (slice text (lineStart text f) (lineEnd text (blockEnd text f t))) with
    | some parsed => some (lineStart text f, lineEnd text (blockEnd text f t), parsed)
    | none => none

/-- In-memory grid state of the table widget (`liveHeaders`, `liveRows`,
`liveAligns`).  The DOM grid mirrors this state cell for cell; `readDOM`
copies the DOM back into it and is therefore the identity here. -/
structure TableGrid where
  liveHeaders : List Text
  liveRows : List (List Text)
  liveAligns : List Alignment
deriving DecidableEq, Repr

/-- `addRowDOM`: append an empty data row (one cell per header).  The `Bool`
of each grid operation records whether `sync()` ran, i.e. whether a buffer
write-back may happen. -/
def addRowDOM (g : TableGrid) : TableGrid × Bool :=
  (⟨g.liveHeaders, g.liveRows ++ [g.liveHeaders.map (fun _ => [])], g.liveAligns⟩, true)

/-- `addColumnDOM`: append an empty header, a `left` alignment and an empty
cell to every data row. -/
def addColumnDOM (g : TableGrid) : TableGrid × Bool :=
  (⟨g.liveHeaders ++ [[]], g.liveRows.map (· ++ [[]]), g.liveAligns ++ [Alignment.left]⟩,
    true)

/-- `deleteRowDOM(rowIdx)`: keep at least 1 data row, else remove the row and
re-sync. -/
def deleteRowDOM (g : TableGrid) (rowIdx : Nat) : TableGrid × Bool :=
  if g.liveRows.length ≤ 1 then (g, false)
  else (⟨g.liveHeaders, g.liveRows.eraseIdx rowIdx, g.liveAligns⟩, true)

/-- `deleteColumnDOM(colIdx)`: keep at least 2 columns, else remove the
header, alignment and the cell of every data row and re-sync. -/
def deleteColumnDOM (g : TableGrid) (colIdx : Nat) : TableGrid × Bool :=
  if g.liveHeaders.length ≤ 2 then (g, false)
  else
    (⟨g.liveHeaders.eraseIdx colIdx, g.liveRows.map (·.eraseIdx colIdx),
      g.liveAligns.eraseIdx colIdx⟩, true)

/-- The spec's selection-overlap test, written from its words: "any selection
range either has its caret positioned within `[from,to]` or (for non-empty
ranges) intersects `[from,to)`" — the caret clause applying only to empty
(caret) ranges.  Kept separate from `isRangeSelected`, which is translated
from the source, so the two can be compared. -/
def specSelectionOverlapped (sel : List SelN) (f t : Nat) : Bool :=
  sel.any fun r =>
    decide ((r.«from» = r.«to» ∧ f ≤ r.«from» ∧ r.«from» ≤ t) ∨
      (r.«from» ≠ r.«to» ∧ min r.«from» r.«to» < t ∧ f < max r.«from» r.«to»))

/-- The non-blank lines of the text slice that the `Table` arm of
`buildDecorations` hands to `parseTableText` (the composition of the
block-boundary correction with the line split/filter of the parser). -/
def tableBlockLines (text : Text) (f t : Nat) : List Text :=
  ((slice text (lineStart text f) (lineEnd text (blockEnd text f t))).splitOn '\n').filter
    (fun l => 0 < (trim l).length)

/-- Marker chosen for the `italic` command by
`preferences.italicDelimiter === 'underscore' ? '_' : '*'`. -/
def italicMarkerOf : ItalicDelimiter → Text
  | .underscore => ['_']
  | .asterisk => ['*']

/-- `applyCommandToText`: dispatch a format command to the marker or link
routine. -/
def applyCommandToText (text : Text) (selection : TextSelection)
    (command : FormatCommand) (preferences : FormattingPreferences)
    (options : FormattingOptions := {}) : TextFormatResult :=
  match command with
  | .bold => formatMarker text selection ['*', '*'] preferences
  | .italic => formatMarker text selection (italicMarkerOf preferences.italicDelimiter) preferences
  | .strikethrough => formatMarker text selection ['~', '~'] preferences
  | .link => formatLink text selection preferences options

/-- An entry of the orchestrator's processing order:
`ranges.map((range, index) => ({...range, index}))`. -/
structure OrderEntry where
  «from» : Nat
  «to» : Nat
  index : Nat
deriving DecidableEq, Repr

/-- Stable insertion: place `x` before the first element it should precede
(`le x y` true also on ties, so equal elements keep their relative order, as
JavaScript's stable `Array.prototype.sort` does). -/
def insertBy {α : Type} (le : α → α → Bool) (x : α) : List α → List α
  | [] => [x]
  | y :: ys => if le x y then x :: y :: ys else y :: insertBy le x ys

/-- Stable sort by a total preorder, modelling `Array.prototype.sort`. -/
def sortBy {α : Type} (le : α → α → Bool) : List α → List α
  | [] => []
  | x :: xs => insertBy le x (sortBy le xs)

/-- Processing order: sort by descending `from`, ties by descending `to`
(comparator `b.from - a.from || b.to - a.to`; JavaScript sort is stable). -/
def orderEntries (ranges : List SelN) : List OrderEntry :=
  let entries := ranges.enum.map fun p => OrderEntry.mk p.2.«from» p.2.«to» p.1
  sortBy (fun a b =>
    decide (b.«from» < a.«from» ∨ (a.«from» = b.«from» ∧ b.«to» ≤ a.«to»))) entries

/-- Position mapping through one change, `ChangeSet.of([change], len).mapPos
(pos, assoc)` of CodeMirror (`MapMode.Simple`): positions before the change
are kept, positions strictly inside the replaced span collapse to its start,
positions at or beyond its end shift by the length difference, and a position
exactly at a pure insertion point stays before the insertion for `assoc = -1`
and moves after it for `assoc = 1`. -/
def mapPos (change : Change) (pos : Nat) (assocNeg : Bool) : Nat :=
  if pos < change.«from» then pos
  else if pos < change.«to» then change.«from»
  else if pos = change.«to» ∧ change.«from» = change.«to» ∧ assocNeg then pos
  else change.«from» + change.insert.length + (pos - change.«to»)

/-- Loop `for (const processedIndex of processedIndices) { ... }`: remap the
already-processed selections through the freshly applied change. -/
def remapProcessed (ranges : List SelN) (processedIndices : List Nat)
    (change : Change) : List SelN :=
  processedIndices.foldl (fun rs i =>
    match rs.get? i with
    | some processed =>
      rs.set i ⟨mapPos change processed.«from» true, mapPos change processed.«to» false⟩
    | none => rs) ranges

/-- `Number.MAX_SAFE_INTEGER`, the initial overlap guard. -/
def MAX_SAFE_INTEGER : Nat := 2 ^ 53 - 1

/-- Loop state of `applyFormattingToEditor`.  `skippedIndices` is a ghost
field not present in the source: it records the indices of the ranges dropped
by the overlap guard (`continue`) and influences nothing else. -/
structure OrchState where
  nextText : Text
  ranges : List SelN
  processedIndices : List Nat
  changes : List Change
  hasDocumentChange : Bool
  overlapGuard : Nat
  skippedIndices : List Nat
deriving DecidableEq, Repr

/-- One iteration of the `for (const entry of order)` loop of
`applyFormattingToEditor`.  `result.change` is always supplied by
`applyCommandToText`, so `result.change ? result.change.from : current.from`
is `result.change.from`.  Array reads carry a dummy default (`getD`); every
index reached in a run is in range, since entries come from `enum` and both
`set` and the remap preserve the length of `ranges`. -/
def orchStep (command : FormatCommand) (preferences : FormattingPreferences)
    (options : FormattingOptions) (st : OrchState) (entry : OrderEntry) : OrchState :=
  let current := (st.ranges.get? entry.index).getD ⟨0, 0⟩
  if st.overlapGuard < current.«to» then
    { st with skippedIndices := st.skippedIndices ++ [entry.index] }
  else
    let beforeText := st.nextText
    let result := applyCommandToText beforeText current.toSel command preferences options
    let ranges1 := st.ranges.set entry.index result.selection
    let ranges2 :=
      if result.changed then remapProcessed ranges1 st.processedIndices result.change
      else ranges1
    { nextText := result.text
      ranges := ranges2
      processedIndices := st.processedIndices ++ [entry.index]
      changes := if result.changed then st.changes ++ [result.change] else st.changes
      hasDocumentChange := st.hasDocumentChange || result.changed
      overlapGuard := min st.overlapGuard result.change.«from»
      skippedIndices := st.skippedIndices }

/-- Outcome of `applyFormattingToEditor`: `dispatched` is the transaction
handed to `view.dispatch` — the accumulated changes sorted by ascending
`from` (comparator `a.from - b.from || a.to - b.to`), the new selection
ranges and the preserved main index — or `none` when the command was a no-op
(the function returns `false` without dispatching). -/
structure OrchResult where
  dispatched : Option (List Change × List SelN × Nat)
  finalState : OrchState
deriving DecidableEq, Repr

/-- `applyFormattingToEditor(view, command, preferences, options)`, with the
document text, selection ranges and main selection index standing in for the
`EditorView`. -/
def applyFormattingToEditor (text : Text) (ranges0 : List SelN) (mainIndex : Nat)
    (command : FormatCommand) (preferences : FormattingPreferences)
    (options : FormattingOptions) : OrchResult :=
  let order := orderEntries ranges0
  let st0 : OrchState := ⟨text, ranges0, [], [], false, MAX_SAFE_INTEGER, []⟩
  let st := order.foldl (orchStep command preferences options) st0
  if st.hasDocumentChange then
    let sorted := sortBy (fun a b =>
      decide (a.«from» < b.«from» ∨ (a.«from» = b.«from» ∧ a.«to» ≤ b.«to»))) st.changes
    ⟨some (sorted, st.ranges, mainIndex), st⟩
  else ⟨none, st⟩

/-- Well-formedness of an engine result with respect to the input text: the
edit descriptor is ordered and lies inside the input text, the output text is
exactly the descriptor applied to the input, and the output selection is
ordered and lies inside the output text (so the total function corresponds to
a run of the source that performs no out-of-range access and throws
nothing). -/
def WellFormedResult (text : Text) (r : TextFormatResult) : Prop :=
  r.change.«from» ≤ r.change.«to» ∧ r.change.«to» ≤ text.length ∧
  r.text = replaceRange text r.change.«from» r.change.«to» r.change.insert ∧
  r.selection.«from» ≤ r.selection.«to» ∧ r.selection.«to» ≤ r.text.length

/-! ### Shared lemmas -/

/-- Erasing an index removes at most one element. -/
theorem length_eraseIdx_ge {α : Type} (l : List α) (i : Nat) :
    l.length - 1 ≤ (l.eraseIdx i).length := by
  induction l generalizing i with
  | nil => simp
  | cons a l ih =>
    cases i with
    | zero => simp
    | succ j =>
      have := ih j
      simp only [List.eraseIdx, List.length_cons]
      omega

/-! ### C8 — table-widget grid operations preserve the minimum shape -/

/-- C8: every grid operation of the Table Widget preserves the minimum shape
of at least 1 data row and at least 2 columns, and a row deletion with only 1
data row left, or a column deletion with only 2 columns left, is a no-op that
leaves the grid unchanged and runs no `sync()` (so the buffer is untouched). -/
theorem tableGrid_min_shape (g : TableGrid) (rowIdx colIdx : Nat)
    (hr : 1 ≤ g.liveRows.length) (hc : 2 ≤ g.liveHeaders.length) :
    (1 ≤ (addRowDOM g).1.liveRows.length ∧ 2 ≤ (addRowDOM g).1.liveHeaders.length) ∧
    (1 ≤ (addColumnDOM g).1.liveRows.length ∧ 2 ≤ (addColumnDOM g).1.liveHeaders.length) ∧
    (1 ≤ (deleteRowDOM g rowIdx).1.liveRows.length ∧
      2 ≤ (deleteRowDOM g rowIdx).1.liveHeaders.length) ∧
    (1 ≤ (deleteColumnDOM g colIdx).1.liveRows.length ∧
      2 ≤ (deleteColumnDOM g colIdx).1.liveHeaders.length) ∧
    (g.liveRows.length = 1 → deleteRowDOM g rowIdx = (g, false)) ∧
    (g.liveHeaders.length = 2 → deleteColumnDOM g colIdx = (g, false)) := by
  have hrow := length_eraseIdx_ge g.liveRows rowIdx
  have hcol := length_eraseIdx_ge g.liveHeaders colIdx
  refine ⟨⟨?_, ?_⟩, ⟨?_, ?_⟩, ⟨?_, ?_⟩, ⟨?_, ?_⟩, ?_, ?_⟩ <;>
    simp only [addRowDOM, addColumnDOM, deleteRowDOM, deleteColumnDOM]
  · simp only [List.length_append, List.length_cons]; omega
  · exact hc
  · simpa using hr
  · simp only [List.length_append, List.length_cons]; omega
  · split
    · exact hr
    · next h => simp only []; omega
  · split <;> exact hc
  · split
    · exact hr
    · simpa using hr
  · split
    · exact hc
    · next h => simp only []; omega
  · intro h1
    rw [if_pos (by omega)]
  · intro h2
    rw [if_pos (by omega)]

/-- Witness for C8 at a concrete 2×1 grid. -/
theorem tableGrid_min_shape_witness :
    deleteRowDOM ⟨[['a'], ['b']], [[['x'], ['y']]], [.left, .left]⟩ 0 =
      (⟨[['a'], ['b']], [[['x'], ['y']]], [.left, .left]⟩, false) :=
  (tableGrid_min_shape ⟨[['a'], ['b']], [[['x'], ['y']]], [.left, .left]⟩ 0 0
    (by decide) (by decide)).2.2.2.2.1 (by decide)

/-! ### C5 — the decoration builder's selection-overlap test -/

/-- C5 counterexample: the non-empty selection range `{5,7}` merely starts at
the node range's `to = 5` and does not intersect `[0,5)`, yet
`isRangeSelected` reports an overlap (its first check uses `range.from` as
the "caret" position for every range, not only for empty ones), while the
spec's predicate does not. -/
theorem isRangeSelected_start_at_to_counts :
    isRangeSelected [⟨5, 7⟩] 0 5 = true ∧ specSelectionOverlapped [⟨5, 7⟩] 0 5 = false := by
  decide

/-- C5 amended: for a node range `[f,t]` with `f < t`, the selection-overlap
test holds exactly when some selection range has its `from` endpoint inside
the closed interval `[f,t]` — whether or not the range is empty — or is
non-empty and its span meets the half-open interval `[f,t)`.  In particular a
non-empty range starting exactly at `t` does count as overlapping. -/
theorem isRangeSelected_iff (sel : List SelN) (f t : Nat) (hft : f < t) :
    isRangeSelected sel f t = true ↔
      ∃ r ∈ sel, (f ≤ r.«from» ∧ r.«from» ≤ t) ∨
        (r.«from» ≠ r.«to» ∧
          ∃ x, min r.«from» r.«to» ≤ x ∧ x < max r.«from» r.«to» ∧ f ≤ x ∧ x < t) := by
  unfold isRangeSelected
  rw [List.any_eq_true]
  constructor
  · rintro ⟨r, hr, hb⟩
    refine ⟨r, hr, ?_⟩
    simp only [] at hb
    split at hb
    · exact Or.inl (by assumption)
    · split at hb
      · rw [decide_eq_true_eq] at hb
        refine Or.inr ⟨by assumption, max f (min r.«from» r.«to»), ?_, ?_, ?_, ?_⟩ <;> omega
      · simp at hb
  · rintro ⟨r, hr, hb⟩
    refine ⟨r, hr, ?_⟩
    simp only []
    split
    · rfl
    · next h1 =>
      rcases hb with h | ⟨hne, x, hx1, hx2, hx3, hx4⟩
      · exact absurd h h1
      · rw [if_pos hne, decide_eq_true_eq]
        omega

/-- Witness for C5 at a caret inside the node range. -/
theorem isRangeSelected_iff_witness :
    isRangeSelected [⟨3, 3⟩] 0 5 = true :=
  (isRangeSelected_iff [⟨3, 3⟩] 0 5 (by decide)).mpr ⟨⟨3, 3⟩, by decide, Or.inl (by decide)⟩

/-! ### C10 — the engine is invariant under swapping the selection endpoints -/

/-- Normalization is symmetric in the two endpoints. -/
theorem normalizeSelection_swap (a b : Int) (len : Nat) :
    normalizeSelection ⟨a, b⟩ len = normalizeSelection ⟨b, a⟩ len := by
  unfold normalizeSelection
  simp only []
  split <;> split <;> first
    | rfl
    | (rename_i h1 h2; exact congrArg₂ TextSelection.mk (by omega) (by omega))

/-- Target resolution is symmetric in the two endpoints. -/
theorem resolveTargetSelection_swap (text : Text) (a b : Int)
    (preferences : FormattingPreferences) :
    resolveTargetSelection text ⟨a, b⟩ preferences =
      resolveTargetSelection text ⟨b, a⟩ preferences := by
  unfold resolveTargetSelection
  rw [normalizeSelection_swap]

/-- `formatMarker` uses its selection argument only through
`resolveTargetSelection`. -/
theorem formatMarker_congr (text : Text) (s1 s2 : TextSelection) (marker : Text)
    (preferences : FormattingPreferences)
    (h : resolveTargetSelection text s1 preferences =
      resolveTargetSelection text s2 preferences) :
    formatMarker text s1 marker preferences = formatMarker text s2 marker preferences := by
  unfold formatMarker
  rw [h]

/-- `formatLink` uses its selection argument only through
`resolveTargetSelection`. -/
theorem formatLink_congr (text : Text) (s1 s2 : TextSelection)
    (preferences : FormattingPreferences) (options : FormattingOptions)
    (h : resolveTargetSelection text s1 preferences =
      resolveTargetSelection text s2 preferences) :
    formatLink text s1 preferences options = formatLink text s2 preferences options := by
  unfold formatLink
  rw [h]

/-- C10: for every text, command, preferences and options, the formatting
engine returns identical results (text, selection, changed flag and edit
descriptor alike) on `{from: a, to: b}` and on the reversed `{from: b, to:
a}`. -/
theorem applyCommandToText_swap (text : Text) (a b : Int) (command : FormatCommand)
    (preferences : FormattingPreferences) (options : FormattingOptions) :
    applyCommandToText text ⟨a, b⟩ command preferences options =
      applyCommandToText text ⟨b, a⟩ command preferences options := by
  have h := resolveTargetSelection_swap text a b preferences
  cases command with
  | bold => exact formatMarker_congr _ _ _ _ _ h
  | italic => exact formatMarker_congr _ _ _ _ _ h
  | strikethrough => exact formatMarker_congr _ _ _ _ _ h
  | link => exact formatLink_congr _ _ _ _ _ h

/-! ### C4 — column counts in the parsed Table Model -/

/-- `parseTableRow` always yields at least one cell (`split` never returns an
empty array), so the dead `headers.length === 0` check never fires. -/
theorem parseTableRow_ne_nil (line : Text) : parseTableRow line ≠ [] := by
  unfold parseTableRow
  intro h
  rw [List.map_eq_nil_iff] at h
  exact List.splitOnP_ne_nil _ _ h

/-- C4 counterexample: the parser accepts `"a|b\n-|-\nc"`, whose single data
row has 1 column while `headers` has 2 — the parser does not pad or truncate
data rows to the header count. -/
theorem parseTableText_ragged_row :
    parseTableText ("a|b\n-|-\nc".toList) =
      some ⟨[['a'], ['b']], [[['c']]], [Alignment.left, Alignment.left]⟩ ∧
    ¬ ∀ row ∈ ([[['c']]] : List (List Text)),
        row.length = ([['a'], ['b']] : List Text).length := by
  constructor
  · decide
  · decide

/-- C4 amended: for every table text accepted by the table parser, `headers`
is non-empty, `alignments` is non-empty, and every parsed data row has at
least one column; a data row's column count is the pipe-cell count of its own
source line and is not forced to equal the header count. -/
theorem parseTableText_shape (text : Text) (m : TableModel)
    (h : parseTableText text = some m) :
    m.headers ≠ [] ∧ m.alignments ≠ [] ∧ ∀ row ∈ m.rows, row ≠ [] := by
  unfold parseTableText at h
  simp only [] at h
  split at h
  · next line0 line1 restLines heq =>
    split at h
    · exact absurd h (by simp)
    · split at h
      · next halign =>
        rw [Option.some_inj] at h
        subst h
        refine ⟨parseTableRow_ne_nil line0, ?_, ?_⟩
        · simpa using parseTableRow_ne_nil line1
        · intro row hrow
          simp only [List.mem_map] at hrow
          obtain ⟨l, _, rfl⟩ := hrow
          exact parseTableRow_ne_nil l
      · exact absurd h (by simp)
  · exact absurd h (by simp)

/-- Witness for C4 at the concrete accepted table `"a|b\n-|-\nc"`. -/
theorem parseTableText_shape_witness :
    ([['a'], ['b']] : List Text) ≠ [] ∧
    ([Alignment.left, Alignment.left] : List Alignment) ≠ [] ∧
    ∀ row ∈ ([[['c']]] : List (List Text)), row ≠ [] :=
  parseTableText_shape ("a|b\n-|-\nc".toList)
    ⟨[['a'], ['b']], [[['c']]], [Alignment.left, Alignment.left]⟩ (by decide)

/-! ### C7 — the Table arm of the decoration builder -/

/-- Acceptance of `parseTableText`: exactly the texts with at least two
non-blank lines whose second non-blank line consists of cells matching
`^:?-+:?$` (the `headers.length === 0` check is dead by
`parseTableRow_ne_nil`). -/
theorem parseTableText_isSome (txt : Text) :
    (parseTableText txt).isSome = true ↔
      2 ≤ ((txt.splitOn '\n').filter (fun l => 0 < (trim l).length)).length ∧
      ∀ cell ∈ parseTableRow
          (((txt.splitOn '\n').filter (fun l => 0 < (trim l).length)).getD 1 []),
        isAlignCell (trim cell) = true := by
  unfold parseTableText
  simp only []
  split
  · next line0 line1 restLines heq =>
    rw [heq]
    rw [if_neg (by simpa using parseTableRow_ne_nil line0)]
    constructor
    · intro h
      split at h
      · next hall =>
        rw [List.all_eq_true] at hall
        exact ⟨by simp, by simpa using hall⟩
      · simp at h
    · rintro ⟨-, hall⟩
      rw [if_pos ?_]
      · simp
      · rw [List.all_eq_true]
        simpa using hall
  · next heq =>
    constructor
    · intro h
      simp at h
    · rintro ⟨hh2, -⟩
      exfalso
      cases hl : ((txt.splitOn '\n').filter (fun l => 0 < (trim l).length)) with
      | nil => rw [hl] at hh2; simp at hh2
      | cons a tail =>
        cases tail with
        | nil => rw [hl] at hh2; simp at hh2
        | cons b rest => exact heq a b rest hl

/-- C7: for a `Table` node whose corrected block slice has at least two
non-blank lines, the decoration builder emits a block widget exactly when the
node is not selection-overlapped and every cell of the block's second
non-blank row matches `^:?-+:?$` after trimming; when the alignment-row check
fails the block gets no widget (and, the builder being total, no error). -/
theorem buildTableDecoration_isSome_iff (text : Text) (sel : List SelN) (f t : Nat)
    (h2 : 2 ≤ (tableBlockLines text f t).length) :
    (buildTableDecoration text sel f t).isSome = true ↔
      (isRangeSelected sel f t = false ∧
       ∀ cell ∈ parseTableRow ((tableBlockLines text f t).getD 1 []),
         isAlignCell (trim cell) = true) := by
  unfold buildTableDecoration
  split
  · next hsel =>
    simp only [Option.isSome_none, Bool.false_eq_true, false_iff, not_and]
    intro hcontra
    rw [hsel] at hcontra
    exact absurd hcontra (by simp)
  · next hsel =>
    rw [Bool.not_eq_true] at hsel
    have hiff := parseTableText_isSome
      (slice text (lineStart text f) (lineEnd text (blockEnd text f t)))
    have hmatch : ∀ o : Option TableModel,
        (match o with
          | some parsed =>
            some (lineStart text f, lineEnd text (blockEnd text f t), parsed)
          | none => (none : Option (Nat × Nat × TableModel))).isSome = o.isSome := by
      intro o; cases o <;> rfl
    rw [hmatch]
    constructor
    · intro h
      exact ⟨hsel, (hiff.mp h).2⟩
    · rintro ⟨-, hall⟩
      exact hiff.mpr ⟨h2, hall⟩

/-- Witness for C7: a table block with a valid alignment row and a caret
outside it yields a widget. -/
theorem buildTableDecoration_isSome_iff_witness :
    (buildTableDecoration ("x|y\n-|-\nzz".toList) [⟨9, 9⟩] 0 8).isSome = true :=
  (buildTableDecoration_isSome_iff ("x|y\n-|-\nzz".toList) [⟨9, 9⟩] 0 8
    (by decide)).mpr ⟨by decide, by decide⟩

/-! ### C6 — empty-selection word expansion -/

/-- The left scan never moves right. -/
theorem scanWordLeft_le (text : Text) (f : Nat) : scanWordLeft text f ≤ f := by
  induction f with
  | zero => simp [scanWordLeft]
  | succ n ih =>
    rw [scanWordLeft]
    split
    · omega
    · omega

/-- Every position passed over by the left scan holds a word character. -/
theorem scanWordLeft_word (text : Text) (f : Nat) :
    ∀ i, scanWordLeft text f ≤ i → i < f → isWordChar (charAt text i) = true := by
  induction f with
  | zero => omega
  | succ n ih =>
    intro i h1 h2
    rw [scanWordLeft] at h1
    split at h1
    · next hw =>
      rcases Nat.lt_or_ge i n with h | h
      · exact ih i h1 h
      · have : i = n := by omega
        subst this
        exact hw
    · omega

/-- The left scan stops at offset 0 or just right of a non-word character. -/
theorem scanWordLeft_boundary (text : Text) (f : Nat) :
    scanWordLeft text f = 0 ∨
    isWordChar (charAt text (scanWordLeft text f - 1)) = false := by
  induction f with
  | zero => exact Or.inl rfl
  | succ n ih =>
    rw [scanWordLeft]
    split
    · exact ih
    · next hw =>
      exact Or.inr (by simpa using hw)

/-- The right scan never moves left. -/
theorem scanWordRightGo_ge (text : Text) (fuel : Nat) :
    ∀ t, t ≤ scanWordRightGo text fuel t := by
  induction fuel with
  | zero => intro t; simp [scanWordRightGo]
  | succ n ih =>
    intro t
    rw [scanWordRightGo]
    split
    · exact le_trans (by omega) (ih (t + 1))
    · exact le_refl t

/-- The right scan stays inside the text. -/
theorem scanWordRightGo_le (text : Text) (fuel : Nat) :
    ∀ t, t ≤ text.length → scanWordRightGo text fuel t ≤ text.length := by
  induction fuel with
  | zero => intro t h; simpa [scanWordRightGo] using h
  | succ n ih =>
    intro t h
    rw [scanWordRightGo]
    split
    · next hc => exact ih (t + 1) (by omega)
    · exact h

/-- Every position passed over by the right scan holds a word character. -/
theorem scanWordRightGo_word (text : Text) (fuel : Nat) :
    ∀ t i, t ≤ i → i < scanWordRightGo text fuel t →
      isWordChar (charAt text i) = true := by
  induction fuel with
  | zero => intro t i h1 h2; rw [scanWordRightGo] at h2; omega
  | succ n ih =>
    intro t i h1 h2
    rw [scanWordRightGo] at h2
    split at h2
    · next hc =>
      rcases Nat.lt_or_ge t i with h | h
      · exact ih (t + 1) i (by omega) h2
      · have : i = t := by omega
        subst this
        exact hc.2
    · omega

/-- The right scan stops at the end of the text or just left of a non-word
character. -/
theorem scanWordRightGo_boundary (text : Text) (fuel : Nat) :
    ∀ t, text.length ≤ t + fuel →
      text.length ≤ scanWordRightGo text fuel t ∨
      isWordChar (charAt text (scanWordRightGo text fuel t)) = false := by
  induction fuel with
  | zero =>
    intro t h
    rw [scanWordRightGo]
    exact Or.inl (by omega)
  | succ n ih =>
    intro t h
    rw [scanWordRightGo]
    split
    · exact ih (t + 1) (by omega)
    · next hc =>
      rw [not_and_or] at hc
      rcases hc with hc | hc
      · exact Or.inl (by omega)
      · exact Or.inr (by simpa using hc)

/-- A word character at offset `i` implies `i` is inside the text. -/
theorem lt_length_of_isWordChar (text : Text) (i : Nat)
    (h : isWordChar (charAt text i) = true) : i < text.length := by
  by_contra hlen
  rw [charAt, List.get?_eq_none.mpr (by omega)] at h
  simp [isWordChar] at h

/-- Specification of `expandSelectionToWord` at a caret `c ≤ text.length`:
`none` exactly reports that no word character touches the caret, and a
returned range is a non-empty all-word run containing or adjacent to the
caret and bounded by non-word characters or the text ends. -/
theorem expandSelectionToWord_spec (text : Text) (c : Nat) (hc : c ≤ text.length) :
    (expandSelectionToWord text c = none →
      isWordChar (charAt text c) = false ∧
      (c = 0 ∨ isWordChar (charAt text (c - 1)) = false)) ∧
    (∀ r, expandSelectionToWord text c = some r →
      r.«from» ≤ c ∧ c ≤ r.«to» ∧ r.«from» < r.«to» ∧ r.«to» ≤ text.length ∧
      (∀ i, r.«from» ≤ i → i < r.«to» → isWordChar (charAt text i) = true) ∧
      (r.«from» = 0 ∨ isWordChar (charAt text (r.«from» - 1)) = false) ∧
      (r.«to» = text.length ∨ isWordChar (charAt text r.«to») = false)) := by
  have hpivot : min c text.length = c := by omega
  constructor
  · intro hnone
    unfold expandSelectionToWord at hnone
    split at hnone
    · next hlen =>
      constructor
      · rw [charAt, List.get?_eq_none.mpr (by omega)]
        rfl
      · exact Or.inl (by omega)
    · rw [hpivot] at hnone
      simp only [] at hnone
      split at hnone
      · exact absurd hnone (by simp)
      · split at hnone
        · exact absurd hnone (by simp)
        · next hA hB =>
          rw [not_and_or] at hB
          constructor
          · by_contra hw
            rw [Bool.not_eq_false] at hw
            exact hA ⟨lt_length_of_isWordChar text c hw, hw⟩
          · rcases hB with hB | hB
            · exact Or.inl (by omega)
            · exact Or.inr (by simpa using hB)
  · intro r hr
    unfold expandSelectionToWord at hr
    split at hr
    · exact absurd hr (by simp)
    · next hlen =>
      rw [hpivot] at hr
      simp only [] at hr
      split at hr
      · next hA =>
        rw [Option.some_inj] at hr
        subst hr
        have h1 := scanWordLeft_le text c
        have h2 := scanWordRightGo_ge text (text.length - (c + 1)) (c + 1)
        have h3 := scanWordRightGo_le text (text.length - (c + 1)) (c + 1) (by omega)
        have h4 := scanWordRightGo_boundary text (text.length - (c + 1)) (c + 1) (by omega)
        refine ⟨h1, by simpa [scanWordRight] using (by omega : c ≤ c + 1).trans h2, ?_, ?_, ?_, ?_, ?_⟩
        · simp only [scanWordRight]
          omega
        · simpa [scanWordRight] using h3
        · intro i hi1 hi2
          simp only [scanWordRight] at hi2
          rcases Nat.lt_or_ge i c with h | h
          · exact scanWordLeft_word text c i hi1 h
          · rcases Nat.lt_or_ge i (c + 1) with h' | h'
            · have : i = c := by omega
              subst this
              exact hA.2
            · exact scanWordRightGo_word text (text.length - (c + 1)) (c + 1) i h' hi2
        · exact scanWordLeft_boundary text c
        · simp only [scanWordRight]
          rcases h4 with h | h
          · exact Or.inl (by omega)
          · exact Or.inr h
      · split at hr
        · next hA hB =>
          rw [Option.some_inj] at hr
          subst hr
          have h1 := scanWordLeft_le text (c - 1)
          have h2 := scanWordRightGo_ge text (text.length - c) c
          have h3 := scanWordRightGo_le text (text.length - c) c (by omega)
          have h4 := scanWordRightGo_boundary text (text.length - c) c (by omega)
          refine ⟨by show scanWordLeft text (c - 1) ≤ c; omega,
            by simpa [scanWordRight] using h2, ?_, ?_, ?_, ?_, ?_⟩
          · simp only [scanWordRight]
            omega
          · simpa [scanWordRight] using h3
          · intro i hi1 hi2
            simp only [scanWordRight] at hi2
            rcases Nat.lt_or_ge i (c - 1) with h | h
            · exact scanWordLeft_word text (c - 1) i hi1 h
            · rcases Nat.lt_or_ge i c with h' | h'
              · have : i = c - 1 := by omega
                subst this
                exact hB.2
              · exact scanWordRightGo_word text (text.length - c) c i h' hi2
          · exact scanWordLeft_boundary text (c - 1)
          · simp only [scanWordRight]
            rcases h4 with h | h
            · exact Or.inl (by omega)
            · exact Or.inr h
        · exact absurd hr (by simp)

/-- Clamping lands in `[0, len]`. -/
theorem clamp_nonneg_le (v : Int) (len : Nat) :
    0 ≤ clamp v 0 len ∧ clamp v 0 len ≤ len := by
  unfold clamp
  exact ⟨le_max_left _ _, max_le (Int.natCast_nonneg len) (min_le_left _ _)⟩

/-- Normalizing a caret clamps it to `[0, len]` and keeps it a caret. -/
theorem normalizeSelection_caret (len : Nat) (sel : TextSelection)
    (h : sel.«from» = sel.«to») :
    normalizeSelection sel len = ⟨clamp sel.«from» 0 len, clamp sel.«from» 0 len⟩ := by
  unfold normalizeSelection
  rw [← h]
  simp only []
  rw [if_pos (le_refl _)]

/-- C6: for every text and caret selection, with `c` the caret clamped to
`[0, text.length]`: under the `"markers"` policy the target selection is
never expanded; under the `"word"` policy it stays the empty caret when no
word character touches `c`, and otherwise becomes a non-empty range
containing or adjacent to `c` that consists only of word characters
`[A-Za-z0-9_]` and is bounded by non-word characters or the text ends (the
maximal word run at the caret). -/
theorem resolveTarget_caret_policy (text : Text) (sel : TextSelection) (c : Nat)
    (hcaret : sel.«from» = sel.«to»)
    (hc : c = (clamp sel.«from» 0 text.length).toNat)
    (prefs : FormattingPreferences) :
    (prefs.emptySelectionBehavior = .markers →
      resolveTargetSelection text sel prefs = ⟨c, c⟩) ∧
    (prefs.emptySelectionBehavior = .word →
      ((isWordChar (charAt text c) = false ∧
          (c = 0 ∨ isWordChar (charAt text (c - 1)) = false)) →
        resolveTargetSelection text sel prefs = ⟨c, c⟩) ∧
      ((isWordChar (charAt text c) = true ∨
          (0 < c ∧ isWordChar (charAt text (c - 1)) = true)) →
        (resolveTargetSelection text sel prefs).«from» ≤ c ∧
        c ≤ (resolveTargetSelection text sel prefs).«to» ∧
        (resolveTargetSelection text sel prefs).«from» <
          (resolveTargetSelection text sel prefs).«to» ∧
        (resolveTargetSelection text sel prefs).«to» ≤ text.length ∧
        (∀ i, (resolveTargetSelection text sel prefs).«from» ≤ i →
          i < (resolveTargetSelection text sel prefs).«to» →
          isWordChar (charAt text i) = true) ∧
        ((resolveTargetSelection text sel prefs).«from» = 0 ∨
          isWordChar
            (charAt text ((resolveTargetSelection text sel prefs).«from» - 1)) = false) ∧
        ((resolveTargetSelection text sel prefs).«to» = text.length ∨
          isWordChar (charAt text (resolveTargetSelection text sel prefs).«to») = false))) := by
  obtain ⟨hb1, hb2⟩ := clamp_nonneg_le sel.«from» text.length
  have hcle : c ≤ text.length := by omega
  have hres : resolveTargetSelection text sel prefs =
      (if prefs.emptySelectionBehavior = .word then
        (expandSelectionToWord text c).getD ⟨c, c⟩
      else ⟨c, c⟩) := by
    unfold resolveTargetSelection
    rw [normalizeSelection_caret text.length sel hcaret]
    simp only []
    rw [if_neg (by simp), ← hc]
  have hspec := expandSelectionToWord_spec text c hcle
  constructor
  · intro hm
    rw [hres, if_neg (by simp [hm])]
  · intro hw
    rw [hres, if_pos hw]
    constructor
    · rintro ⟨h1, h2⟩
      cases hexp : expandSelectionToWord text c with
      | none => simp
      | some r =>
        exfalso
        obtain ⟨hf, ht, hlt, -, hword, -, -⟩ := hspec.2 r hexp
        rcases Nat.lt_or_ge c r.«to» with hcase | hcase
        · exact absurd (hword c hf hcase) (by simp [h1])
        · have hct : c = r.«to» := by omega
          have hcpos : 0 < c := by omega
          have hw1 : isWordChar (charAt text (c - 1)) = true :=
            hword (c - 1) (by omega) (by omega)
          rcases h2 with h2 | h2
          · omega
          · exact absurd hw1 (by simp [h2])
    · intro hadj
      cases hexp : expandSelectionToWord text c with
      | none =>
        exfalso
        obtain ⟨h1, h2⟩ := hspec.1 hexp
        rcases hadj with hadj | ⟨hcpos, hadj⟩
        · exact absurd hadj (by simp [h1])
        · rcases h2 with h2 | h2
          · omega
          · exact absurd hadj (by simp [h2])
      | some r =>
        simp only [hexp, Option.getD_some]
        exact hspec.2 r hexp

/-- Witness for C6: the `"markers"` policy never expands a caret. -/
theorem resolveTarget_caret_policy_witness :
    resolveTargetSelection ("A paragraph with text".toList) ⟨4, 4⟩
      ⟨.markers, .underscore⟩ = ⟨4, 4⟩ :=
  (resolveTarget_caret_policy ("A paragraph with text".toList) ⟨4, 4⟩ 4 rfl (by decide)
    ⟨.markers, .underscore⟩).1 rfl

/-! ### C9 — arbitrary selections are clamped first and the engine returns a
well-formed result -/

/-- Length of a slice with ordered in-range offsets. -/
theorem length_slice (text : Text) (f t : Nat) (h1 : f ≤ t) (h2 : t ≤ text.length) :
    (slice text f t).length = t - f := by
  simp only [slice, List.length_take, List.length_drop]
  omega

/-- Length of a range replacement whose start is in range. -/
theorem length_replaceRange (text : Text) (f t : Nat) (r : Text)
    (hf : f ≤ text.length) :
    (replaceRange text f t r).length = f + r.length + (text.length - t) := by
  simp only [replaceRange, List.length_append, List.length_take, List.length_drop]
  omega

/-- A positive surrounding-marker test implies the widened edit stays inside
the text. -/
theorem hasSurroundingMarkers_bounds (text : Text) (f t : Nat) (marker : Text)
    (h : hasSurroundingMarkers text f t marker = true) :
    marker.length ≤ f ∧ t + marker.length ≤ text.length := by
  unfold hasSurroundingMarkers at h
  split at h
  · exact absurd h (by simp)
  · next hg => omega

/-- A positive wrapped-selection test implies the selection holds both
markers. -/
theorem isWrappedSelection_length (selected marker : Text)
    (h : isWrappedSelection selected marker = true) :
    marker.length * 2 ≤ selected.length := by
  unfold isWrappedSelection at h
  split at h
  · exact absurd h (by simp)
  · next hge => omega

/-- A successful `indexOf` search yields an in-range occurrence at or after
the start position. -/
theorem indexOfFromGo_spec (text pat : Text) (fuel : Nat) :
    ∀ start u, indexOfFromGo text pat fuel start = some u →
      start ≤ u ∧ u + pat.length ≤ text.length := by
  induction fuel with
  | zero => intro s u h; simp [indexOfFromGo] at h
  | succ n ih =>
    intro s u h
    rw [indexOfFromGo] at h
    split at h
    · next hle =>
      split at h
      · rw [Option.some_inj] at h
        subst h
        omega
      · have := ih (s + 1) u h
        omega
    · simp at h

/-- `indexOfFrom` version of `indexOfFromGo_spec`. -/
theorem indexOfFrom_spec (text pat : Text) (start u : Nat)
    (h : indexOfFrom text pat start = some u) :
    start ≤ u ∧ u + pat.length ≤ text.length :=
  indexOfFromGo_spec text pat (text.length + 1 - start) start u h

/-- The normalized selection is ordered and lands in `[0, len]`. -/
theorem normalizeSelection_bounds (sel : TextSelection) (len : Nat) :
    0 ≤ (normalizeSelection sel len).«from» ∧
    (normalizeSelection sel len).«from» ≤ (normalizeSelection sel len).«to» ∧
    (normalizeSelection sel len).«to» ≤ len := by
  obtain ⟨ha1, ha2⟩ := clamp_nonneg_le sel.«from» len
  obtain ⟨hb1, hb2⟩ := clamp_nonneg_le sel.«to» len
  unfold normalizeSelection
  simp only []
  split <;> simp only [] <;> omega

/-- The resolved target selection is ordered and lands in `[0, len]`. -/
theorem resolveTargetSelection_bounds (text : Text) (sel : TextSelection)
    (prefs : FormattingPreferences) :
    (resolveTargetSelection text sel prefs).«from» ≤
      (resolveTargetSelection text sel prefs).«to» ∧
    (resolveTargetSelection text sel prefs).«to» ≤ text.length := by
  obtain ⟨h0, h1, h2⟩ := normalizeSelection_bounds sel text.length
  unfold resolveTargetSelection
  simp only []
  split
  · refine ⟨?_, ?_⟩ <;> ((try simp only []); omega)
  · split
    · cases hexp : expandSelectionToWord text
          (normalizeSelection sel text.length).«from».toNat with
      | none =>
        simp only [hexp, Option.getD_none]
        exact ⟨by omega, by omega⟩
      | some r =>
        simp only [hexp, Option.getD_some]
        have hcle : (normalizeSelection sel text.length).«from».toNat ≤ text.length := by
          omega
        obtain ⟨hf, ht, hlt, hle, -, -, -⟩ :=
          (expandSelectionToWord_spec text _ hcle).2 r hexp
        exact ⟨by omega, hle⟩
    · refine ⟨?_, ?_⟩ <;> ((try simp only []); omega)

/-- Clamping a value already inside `[0, len]` is the identity. -/
theorem clamp_eq_self (v : Int) (len : Nat) (h1 : 0 ≤ v) (h2 : v ≤ len) :
    clamp v 0 len = v := by
  unfold clamp
  rw [min_eq_right h2, max_eq_right h1]

/-- Normalization is idempotent. -/
theorem normalizeSelection_idem (sel : TextSelection) (len : Nat) :
    normalizeSelection (normalizeSelection sel len) len = normalizeSelection sel len := by
  obtain ⟨h0, h1, h2⟩ := normalizeSelection_bounds sel len
  conv_lhs => rw [normalizeSelection]
  rw [clamp_eq_self _ _ h0 (by omega), clamp_eq_self _ _ (by omega) h2, if_pos h1]

/-- Resolving against a pre-normalized selection resolves the original. -/
theorem resolveTargetSelection_normalize (text : Text) (sel : TextSelection)
    (prefs : FormattingPreferences) :
    resolveTargetSelection text (normalizeSelection sel text.length) prefs =
      resolveTargetSelection text sel prefs := by
  conv_lhs => rw [resolveTargetSelection]
  conv_rhs => rw [resolveTargetSelection]
  rw [normalizeSelection_idem]

/-- Every branch of `formatMarker` produces a well-formed result. -/
theorem formatMarker_wf (text : Text) (sel : TextSelection) (marker : Text)
    (prefs : FormattingPreferences) :
    WellFormedResult text (formatMarker text sel marker prefs) := by
  obtain ⟨hft, htl⟩ := resolveTargetSelection_bounds text sel prefs
  unfold WellFormedResult formatMarker
  simp only []
  split
  · next heq =>
    refine ⟨?_, ?_, ?_, ?_, ?_⟩
    · simp only []; omega
    · simp only []; omega
    · rfl
    · simp only []; omega
    · simp only []
      rw [length_replaceRange text _ _ _ (by omega), List.length_append]
      omega
  · split
    · next hwrap =>
      refine ⟨?_, ?_, ?_, ?_, ?_⟩
      · simp only []; omega
      · simp only []; omega
      · rfl
      · simp only []; omega
      · simp only []
        rw [length_replaceRange text _ _ _ (by omega)]
        omega
    · split
      · next hsur =>
        obtain ⟨hs1, hs2⟩ := hasSurroundingMarkers_bounds _ _ _ _ hsur
        refine ⟨?_, ?_, ?_, ?_, ?_⟩
        · simp only []; omega
        · simp only []; omega
        · rfl
        · simp only []; omega
        · simp only []
          rw [length_replaceRange text _ _ _ (by omega)]
          omega
      · have hsl := length_slice text (resolveTargetSelection text sel prefs).«from»
          (resolveTargetSelection text sel prefs).«to» hft htl
        refine ⟨?_, ?_, ?_, ?_, ?_⟩
        · simp only []; omega
        · simp only []; omega
        · rfl
        · simp only []; omega
        · simp only []
          rw [length_replaceRange text _ _ _ (by omega)]
          simp only [List.length_append]
          omega

/-- A successful outward link unwrap produces a well-formed result. -/
theorem tryUnwrapLinkAroundSelection_wf (text : Text) (selection : SelN)
    (r : TextFormatResult)
    (hft : selection.«from» ≤ selection.«to») (htl : selection.«to» ≤ text.length)
    (h : tryUnwrapLinkAroundSelection text selection = some r) :
    WellFormedResult text r := by
  unfold tryUnwrapLinkAroundSelection at h
  split at h
  · exact absurd h (by simp)
  · next hg =>
    rw [not_or] at hg
    split at h
    · exact absurd h (by simp)
    · next labelEnd hidx =>
      split at h
      · exact absurd h (by simp)
      · next hle =>
        rw [not_ne_iff] at hle
        subst hle
        split at h
        · exact absurd h (by simp)
        · next urlEnd hidx2 =>
          obtain ⟨hu1, hu2⟩ := indexOfFrom_spec _ _ _ _ hidx2
          simp only [List.length_cons, List.length_nil] at hu2
          rw [Option.some_inj] at h
          subst h
          have hf1 : 1 ≤ selection.«from» := by
            rcases Nat.eq_zero_or_pos selection.«from» with h0 | h0
            · exact absurd h0 hg.1
            · omega
          have hlab := length_slice text selection.«from» selection.«to» hft htl
          unfold WellFormedResult
          refine ⟨?_, ?_, ?_, ?_, ?_⟩
          · simp only []; omega
          · simp only []; omega
          · rfl
          · simp only []; omega
          · simp only []
            rw [length_replaceRange text _ _ _ (by omega)]
            omega

/-- Every branch of `formatLink` produces a well-formed result. -/
theorem formatLink_wf (text : Text) (sel : TextSelection)
    (prefs : FormattingPreferences) (opts : FormattingOptions) :
    WellFormedResult text (formatLink text sel prefs opts) := by
  obtain ⟨hft, htl⟩ := resolveTargetSelection_bounds text sel prefs
  have hsl := length_slice text (resolveTargetSelection text sel prefs).«from»
    (resolveTargetSelection text sel prefs).«to» hft htl
  unfold formatLink
  simp only []
  split
  · next fullyWrapped hfull =>
    unfold WellFormedResult
    refine ⟨?_, ?_, ?_, ?_, ?_⟩
    · simp only []; omega
    · simp only []; omega
    · rfl
    · simp only []; omega
    · simp only []
      rw [length_replaceRange text _ _ _ (by omega)]
      omega
  · split
    · next s hs =>
      exact tryUnwrapLinkAroundSelection_wf text _ s hft htl hs
    · split
      · next heq =>
        unfold WellFormedResult
        refine ⟨?_, ?_, ?_, ?_, ?_⟩
        · simp only []; omega
        · simp only []; omega
        · rfl
        · simp only []; omega
        · simp only []
          rw [length_replaceRange text _ _ _ (by omega)]
          simp only [List.length_append, List.length_cons, List.length_nil]
          omega
      · next hne =>
        unfold WellFormedResult
        refine ⟨?_, ?_, ?_, ?_, ?_⟩
        · simp only []; omega
        · simp only []; omega
        · rfl
        · simp only []; omega
        · simp only []
          rw [length_replaceRange text _ _ _ (by omega)]
          simp only [List.length_append, List.length_cons, List.length_nil]
          omega

/-- C9: for every text, format command and raw selection with arbitrary
integer offsets (negative, reversed or beyond the text length), the engine
behaves as if the selection had first been clamped and normalized to
`[0, text.length]`, and it returns a well-formed result: an ordered in-range
edit descriptor whose application yields the output text, and an ordered
output selection inside the output text — the total-function image of "never
throws". -/
theorem applyCommandToText_clamps_and_wf (text : Text) (sel : TextSelection)
    (command : FormatCommand) (prefs : FormattingPreferences)
    (opts : FormattingOptions) :
    applyCommandToText text (normalizeSelection sel text.length) command prefs opts =
      applyCommandToText text sel command prefs opts ∧
    WellFormedResult text (applyCommandToText text sel command prefs opts) := by
  have h := resolveTargetSelection_normalize text sel prefs
  constructor
  · cases command with
    | bold => exact formatMarker_congr _ _ _ _ _ h
    | italic => exact formatMarker_congr _ _ _ _ _ h
    | strikethrough => exact formatMarker_congr _ _ _ _ _ h
    | link => exact formatLink_congr _ _ _ _ _ h
  · cases command with
    | bold => exact formatMarker_wf _ _ _ _
    | italic => exact formatMarker_wf _ _ _ _
    | strikethrough => exact formatMarker_wf _ _ _ _
    | link => exact formatLink_wf _ _ _ _

/-! ### C3 — round trips of the marker commands -/

/-- A slice that covers exactly the middle part of an append. -/
theorem slice_of_append_eq (l A B C : List Char) (a b : Nat)
    (hl : l = A ++ (B ++ C)) (ha : a = A.length) (hb : b = a + B.length) :
    slice l a b = B := by
  subst hl ha hb
  unfold slice
  rw [List.drop_left, Nat.add_sub_cancel_left, List.take_left]

/-- Dropping exactly the prefix of an append. -/
theorem drop_of_append_eq (l A B : List Char) (a : Nat)
    (hl : l = A ++ B) (ha : a = A.length) :
    l.drop a = B := by
  subst hl ha
  exact List.drop_left A B

/-- Taking exactly the prefix of an append. -/
theorem take_of_append_eq (l A B : List Char) (a : Nat)
    (hl : l = A ++ B) (ha : a = A.length) :
    l.take a = A := by
  subst hl ha
  exact List.take_left A B

/-- A character strictly inside the prefix of an append. -/
theorem charAt_of_append_lt (l A B : List Char) (i : Nat)
    (hl : l = A ++ B) (hi : i < A.length) :
    charAt l i = charAt A i := by
  subst hl
  unfold charAt
  exact List.get?_append hi

/-- The character right after the prefix of an append. -/
theorem charAt_of_append_at (l A B : List Char) (a : Nat)
    (hl : l = A ++ B) (ha : a = A.length) :
    charAt l a = B.head? := by
  subst hl ha
  unfold charAt
  rw [List.get?_append_right (le_refl _), Nat.sub_self]
  cases B <;> rfl

/-- A character of a prefix-take is a character of the original list. -/
theorem charAt_take (text : Text) (n i : Nat) (hi : i < n) :
    charAt (text.take n) i = charAt text i := by
  unfold charAt
  exact List.get?_take hi

/-- The head of a drop is the character at the drop position. -/
theorem head?_drop (text : Text) (n : Nat) :
    (text.drop n).head? = charAt text n := by
  unfold charAt
  have h := List.get?_drop text n 0
  rw [Nat.add_zero] at h
  rw [← h]
  cases text.drop n <;> rfl

/-- Reassembling a text from a prefix, a slice and a suffix. -/
theorem take_slice_drop (text : Text) (f t : Nat) (h1 : f ≤ t)
    (_h2 : t ≤ text.length) :
    text.take f ++ (slice text f t ++ text.drop t) = text := by
  have hd : text.drop t = (text.drop f).drop (t - f) := by
    rw [List.drop_drop]
    congr 1
    omega
  rw [hd]
  unfold slice
  rw [List.take_append_drop]
  exact List.take_append_drop f text

/-- Resolving a non-empty in-range selection is the identity. -/
theorem resolveTargetSelection_of_inrange (text : Text) (a b : Nat)
    (prefs : FormattingPreferences) (ha : a ≤ text.length) (hb : b ≤ text.length)
    (hab : a ≤ b) (hne : a ≠ b) :
    resolveTargetSelection text (SelN.toSel ⟨a, b⟩) prefs = ⟨a, b⟩ := by
  have hnorm : normalizeSelection (SelN.toSel ⟨a, b⟩) text.length = ⟨(a : Int), (b : Int)⟩ := by
    unfold normalizeSelection SelN.toSel
    simp only []
    rw [clamp_eq_self _ _ (by positivity) (by exact_mod_cast ha),
      clamp_eq_self _ _ (by positivity) (by exact_mod_cast hb),
      if_pos (by exact_mod_cast hab)]
  unfold resolveTargetSelection
  rw [hnorm]
  simp only [Int.toNat_natCast]
  rw [if_pos hne]

/-- Core of the amended round trip: when the first application of
`formatMarker` takes the plain wrap branch (non-empty target, not already
wrapped, not surrounded) and — for a single-character marker — the characters
adjacent to the target differ from the marker, the second application
unwraps outward and restores the original text. -/
theorem formatMarker_roundTrip (text : Text) (sel : TextSelection) (marker : Text)
    (prefs : FormattingPreferences) (hm : marker ≠ [])
    (hne : (resolveTargetSelection text sel prefs).«from» <
      (resolveTargetSelection text sel prefs).«to»)
    (hw1 : isWrappedSelection (slice text (resolveTargetSelection text sel prefs).«from»
      (resolveTargetSelection text sel prefs).«to») marker = false)
    (hw2 : hasSurroundingMarkers text (resolveTargetSelection text sel prefs).«from»
      (resolveTargetSelection text sel prefs).«to» marker = false)
    (hadj : marker.length = 1 →
      ((resolveTargetSelection text sel prefs).«from» = 0 ∨
        charAt text ((resolveTargetSelection text sel prefs).«from» - 1) ≠ marker.head?) ∧
      charAt text (resolveTargetSelection text sel prefs).«to» ≠ marker.head?) :
    (formatMarker (formatMarker text sel marker prefs).text
      ((formatMarker text sel marker prefs).selection.toSel) marker prefs).text = text := by
  obtain ⟨hft, htl⟩ := resolveTargetSelection_bounds text sel prefs
  have hmlen : 0 < marker.length := List.length_pos.mpr hm
  have hAlen : (text.take (resolveTargetSelection text sel prefs).«from»).length =
      (resolveTargetSelection text sel prefs).«from» := by
    rw [List.length_take]
    omega
  have hSlen := length_slice text (resolveTargetSelection text sel prefs).«from»
    (resolveTargetSelection text sel prefs).«to» hft htl
  -- the first application takes the wrap branch
  have h1 : formatMarker text sel marker prefs =
      { text := replaceRange text (resolveTargetSelection text sel prefs).«from»
          (resolveTargetSelection text sel prefs).«to»
          (marker ++ slice text (resolveTargetSelection text sel prefs).«from»
            (resolveTargetSelection text sel prefs).«to» ++ marker)
        selection := ⟨(resolveTargetSelection text sel prefs).«from» + marker.length,
          (resolveTargetSelection text sel prefs).«to» + marker.length⟩
        changed := decide (replaceRange text (resolveTargetSelection text sel prefs).«from»
          (resolveTargetSelection text sel prefs).«to»
          (marker ++ slice text (resolveTargetSelection text sel prefs).«from»
            (resolveTargetSelection text sel prefs).«to» ++ marker) ≠ text)
        change := ⟨(resolveTargetSelection text sel prefs).«from»,
          (resolveTargetSelection text sel prefs).«to»,
          marker ++ slice text (resolveTargetSelection text sel prefs).«from»
            (resolveTargetSelection text sel prefs).«to» ++ marker⟩ } := by
    unfold formatMarker
    rw [if_neg (by omega), if_neg (by simp [hw1]), if_neg (by simp [hw2])]
  rw [h1]
  simp only []
  -- abbreviations for the wrap result
  generalize hFf : (resolveTargetSelection text sel prefs).«from» = f at *
  generalize hFt : (resolveTargetSelection text sel prefs).«to» = t at *
  generalize hS : slice text f t = S at *
  generalize hT : replaceRange text f t (marker ++ S ++ marker) = T' at *
  have hT'grouped : T' = text.take f ++ (marker ++ (S ++ (marker ++ text.drop t))) := by
    rw [← hT]
    unfold replaceRange
    simp [List.append_assoc]
  have hT'len : T'.length = text.length + (marker.length + marker.length) := by
    rw [← hT, length_replaceRange text _ _ _ (by omega)]
    simp only [List.length_append]
    omega
  -- the remapped selection resolves to itself
  have hres2 : resolveTargetSelection T' (SelN.toSel ⟨f + marker.length, t + marker.length⟩)
      prefs = ⟨f + marker.length, t + marker.length⟩ :=
    resolveTargetSelection_of_inrange T' _ _ prefs (by omega) (by omega) (by omega) (by omega)
  -- the three marker/selection slices of the wrapped text
  have hslice_before : slice T' f (f + marker.length) = marker :=
    slice_of_append_eq T' (text.take f) marker (S ++ (marker ++ text.drop t)) f
      (f + marker.length) (by rw [hT'grouped]) (by omega) rfl
  have hslice_sel : slice T' (f + marker.length) (t + marker.length) = S :=
    slice_of_append_eq T' (text.take f ++ marker) S (marker ++ text.drop t)
      (f + marker.length) (t + marker.length)
      (by rw [hT'grouped]; simp [List.append_assoc])
      (by simp only [List.length_append]; omega)
      (by omega)
  have hslice_after : slice T' (t + marker.length) (t + marker.length + marker.length)
      = marker :=
    slice_of_append_eq T' (text.take f ++ (marker ++ S)) marker (text.drop t)
      (t + marker.length) (t + marker.length + marker.length)
      (by rw [hT'grouped]; simp [List.append_assoc])
      (by simp only [List.length_append]; omega)
      (by omega)
  have htake : T'.take f = text.take f :=
    take_of_append_eq T' (text.take f) _ f (by rw [hT'grouped]) (by omega)
  have hdrop : T'.drop (t + marker.length + marker.length) = text.drop t :=
    drop_of_append_eq T' (text.take f ++ (marker ++ (S ++ marker))) (text.drop t)
      (t + marker.length + marker.length)
      (by rw [hT'grouped]; simp [List.append_assoc])
      (by simp only [List.length_append]; omega)
  -- the second application sees surrounding markers
  have hsur2 : hasSurroundingMarkers T' (f + marker.length) (t + marker.length) marker
      = true := by
    unfold hasSurroundingMarkers
    rw [if_neg (by omega)]
    rw [Nat.add_sub_cancel, hslice_before, hslice_after,
      if_neg (show ¬¬(marker = marker ∧ marker = marker) from not_not_intro ⟨rfl, rfl⟩)]
    split
    · next hmone =>
      rw [if_neg]
      intro hcon
      obtain ⟨hadj1, hadj2⟩ := hadj hmone
      rcases hcon with hbb | haa
      · rcases hadj1 with h0 | hch
        · subst h0
          rw [if_neg (by omega)] at hbb
          cases hmk : marker.head? with
          | none => rw [hmk] at hbb; exact hm (List.head?_eq_none_iff.mp hmk)
          | some c => rw [hmk] at hbb; exact absurd hbb (by simp)
        · have hf1 : 1 ≤ f := by
            by_contra hlt
            have : f = 0 := by omega
            subst this
            rw [if_neg (by omega)] at hbb
            cases hmk : marker.head? with
            | none => exact hm (List.head?_eq_none_iff.mp hmk)
            | some c => rw [hmk] at hbb; exact absurd hbb (by simp)
          rw [if_pos (by omega)] at hbb
          have : charAt T' (f - 1) = charAt text (f - 1) := by
            rw [charAt_of_append_lt T' (text.take f)
              (marker ++ (S ++ (marker ++ text.drop t))) (f - 1) hT'grouped (by omega),
              charAt_take text f (f - 1) (by omega)]
          rw [this] at hbb
          exact hch hbb
      · have hpos : t + marker.length + marker.length =
            (text.take f ++ (marker ++ (S ++ marker))).length := by
          simp only [List.length_append]
          omega
        rw [charAt_of_append_at T' (text.take f ++ (marker ++ (S ++ marker)))
          (text.drop t) (t + marker.length + marker.length)
          (by rw [hT'grouped]; simp [List.append_assoc]) hpos,
          head?_drop] at haa
        exact (hadj hmone).2 haa
    · rfl
  -- the second application unwraps outward to the original text
  unfold formatMarker
  rw [hres2]
  simp only []
  rw [if_neg (by omega), if_neg (by rw [hslice_sel]; simp [hw1]), if_pos hsur2]
  simp only []
  rw [Nat.add_sub_cancel, hslice_sel]
  unfold replaceRange
  rw [htake, hdrop, ← hS, List.append_assoc]
  exact take_slice_drop text f t (by omega) htl

/-- C3 counterexample: applying a marker command twice with the resulting
selection does not always restore the original text.  `italic` (underscore)
on `"_ab"` with selection `{1,3}` wraps twice (the adjacent `_` trips the
single-character doubling guard), and `bold` on `"****a****"` with selection
`{2,7}` first unwraps the inner `**a**` and then unwraps outward, ending at
`"a"`. -/
theorem applyTwice_not_roundtrip :
    (applyCommandToText
        (applyCommandToText ("_ab".toList) ⟨1, 3⟩ .italic ⟨.word, .underscore⟩ {}).text
        ((applyCommandToText ("_ab".toList) ⟨1, 3⟩ .italic
          ⟨.word, .underscore⟩ {}).selection.toSel)
        .italic ⟨.word, .underscore⟩ {}).text ≠ "_ab".toList ∧
    (applyCommandToText
        (applyCommandToText ("****a****".toList) ⟨2, 7⟩ .bold ⟨.word, .underscore⟩ {}).text
        ((applyCommandToText ("****a****".toList) ⟨2, 7⟩ .bold
          ⟨.word, .underscore⟩ {}).selection.toSel)
        .bold ⟨.word, .underscore⟩ {}).text ≠ "****a****".toList := by
  decide

/-- C3 amended: for every text, selection and marker command in
{bold, italic, strikethrough}, if the first application takes the plain wrap
branch (non-empty target that is neither already wrapped nor surrounded by
the marker) and, for the single-character italic marker, the characters
adjacent to the target differ from the marker character, then applying the
command a second time to the resulting text with the resulting selection
restores the original text. -/
theorem applyTwice_restores (text : Text) (sel : TextSelection)
    (prefs : FormattingPreferences) (command : FormatCommand) (marker : Text)
    (hcmd : command = .bold ∧ marker = ['*', '*'] ∨
      command = .italic ∧ marker = italicMarkerOf prefs.italicDelimiter ∨
      command = .strikethrough ∧ marker = ['~', '~'])
    (hne : (resolveTargetSelection text sel prefs).«from» <
      (resolveTargetSelection text sel prefs).«to»)
    (hw1 : isWrappedSelection (slice text (resolveTargetSelection text sel prefs).«from»
      (resolveTargetSelection text sel prefs).«to») marker = false)
    (hw2 : hasSurroundingMarkers text (resolveTargetSelection text sel prefs).«from»
      (resolveTargetSelection text sel prefs).«to» marker = false)
    (hadj : marker.length = 1 →
      ((resolveTargetSelection text sel prefs).«from» = 0 ∨
        charAt text ((resolveTargetSelection text sel prefs).«from» - 1) ≠ marker.head?) ∧
      charAt text (resolveTargetSelection text sel prefs).«to» ≠ marker.head?) :
    (applyCommandToText (applyCommandToText text sel command prefs {}).text
      ((applyCommandToText text sel command prefs {}).selection.toSel)
      command prefs {}).text = text := by
  have hmne : marker ≠ [] := by
    rcases hcmd with ⟨-, h⟩ | ⟨-, h⟩ | ⟨-, h⟩
    · subst h; simp
    · subst h; cases prefs.italicDelimiter <;> simp [italicMarkerOf]
    · subst h; simp
  rcases hcmd with ⟨hc, hmk⟩ | ⟨hc, hmk⟩ | ⟨hc, hmk⟩ <;> subst hc <;> subst hmk <;>
    exact formatMarker_roundTrip text sel _ prefs hmne hne hw1 hw2 hadj

/-- Witness for C3 (amended) at `bold` on `"abc"` with selection `{0,3}`. -/
theorem applyTwice_restores_witness :
    (applyCommandToText
      (applyCommandToText ("abc".toList) ⟨0, 3⟩ .bold ⟨.word, .underscore⟩ {}).text
      ((applyCommandToText ("abc".toList) ⟨0, 3⟩ .bold
        ⟨.word, .underscore⟩ {}).selection.toSel)
      .bold ⟨.word, .underscore⟩ {}).text = "abc".toList :=
  applyTwice_restores ("abc".toList) ⟨0, 3⟩ ⟨.word, .underscore⟩ .bold ['*', '*']
    (Or.inl ⟨rfl, rfl⟩) (by decide) (by decide) (by decide) (by decide)

/-! ### C1/C2 — the multi-range orchestrator -/

/-- A marker toggle with a non-empty marker always changes the text (every
branch strictly changes the length). -/
theorem formatMarker_changed (text : Text) (sel : TextSelection) (marker : Text)
    (prefs : FormattingPreferences) (hm : marker ≠ []) :
    (formatMarker text sel marker prefs).changed = true := by
  obtain ⟨hft, htl⟩ := resolveTargetSelection_bounds text sel prefs
  have hmlen : 0 < marker.length := List.length_pos.mpr hm
  have hsl := length_slice text (resolveTargetSelection text sel prefs).«from»
    (resolveTargetSelection text sel prefs).«to» hft htl
  unfold formatMarker
  simp only []
  split
  · next heq =>
    simp only [decide_eq_true_eq]
    intro hcon
    have hlen := congrArg List.length hcon
    rw [length_replaceRange text _ _ _ (by omega), List.length_append] at hlen
    omega
  · split
    · next hwr =>
      have h2m := isWrappedSelection_length _ _ hwr
      rw [hsl] at h2m
      have hinner := length_slice
        (slice text (resolveTargetSelection text sel prefs).«from»
          (resolveTargetSelection text sel prefs).«to») marker.length
        ((slice text (resolveTargetSelection text sel prefs).«from»
          (resolveTargetSelection text sel prefs).«to»).length - marker.length)
        (by omega) (by omega)
      simp only [decide_eq_true_eq]
      intro hcon
      have hlen := congrArg List.length hcon
      rw [length_replaceRange text _ _ _ (by omega), hinner, hsl] at hlen
      omega
    · split
      · next hsur =>
        obtain ⟨hs1, hs2⟩ := hasSurroundingMarkers_bounds _ _ _ _ hsur
        simp only [decide_eq_true_eq]
        intro hcon
        have hlen := congrArg List.length hcon
        rw [length_replaceRange text _ _ _ (by omega), hsl] at hlen
        omega
      · simp only [decide_eq_true_eq]
        intro hcon
        have hlen := congrArg List.length hcon
        rw [length_replaceRange text _ _ _ (by omega)] at hlen
        simp only [List.length_append] at hlen
        rw [hsl] at hlen
        omega

/-- An unwrapped full link label is strictly shorter than the link text. -/
theorem tryUnwrapFullLink_length (s label : Text)
    (h : tryUnwrapFullLink s = some label) : label.length < s.length := by
  unfold tryUnwrapFullLink at h
  split at h
  · next rest =>
    simp only [] at h
    split at h
    · exact absurd h (by simp)
    · split at h
      · next rest2 heq2 =>
        split at h
        · exact absurd h (by simp)
        · split at h
          · rw [Option.some_inj] at h
            subst h
            have := (List.takeWhile_prefix (l := rest) (fun c => c != ']')).length_le
            simp only [List.length_cons]
            omega
          · exact absurd h (by simp)
      · exact absurd h (by simp)
  · exact absurd h (by simp)

/-- A successful outward link unwrap always changes the text. -/
theorem tryUnwrapLinkAroundSelection_changed (text : Text) (selection : SelN)
    (r : TextFormatResult)
    (hft : selection.«from» ≤ selection.«to») (htl : selection.«to» ≤ text.length)
    (h : tryUnwrapLinkAroundSelection text selection = some r) :
    r.changed = true := by
  unfold tryUnwrapLinkAroundSelection at h
  split at h
  · exact absurd h (by simp)
  · next hg =>
    rw [not_or] at hg
    split at h
    · exact absurd h (by simp)
    · next labelEnd hidx =>
      split at h
      · exact absurd h (by simp)
      · next hle =>
        rw [not_ne_iff] at hle
        subst hle
        split at h
        · exact absurd h (by simp)
        · next urlEnd hidx2 =>
          obtain ⟨hu1, hu2⟩ := indexOfFrom_spec _ _ _ _ hidx2
          simp only [List.length_cons, List.length_nil] at hu2
          rw [Option.some_inj] at h
          subst h
          have hf1 : 1 ≤ selection.«from» := by
            rcases Nat.eq_zero_or_pos selection.«from» with h0 | h0
            · exact absurd h0 hg.1
            · omega
          have hlab := length_slice text selection.«from» selection.«to» hft htl
          simp only [decide_eq_true_eq]
          intro hcon
          have hlen := congrArg List.length hcon
          rw [length_replaceRange text _ _ _ (by omega), hlab] at hlen
          omega

/-- A link toggle always changes the text. -/
theorem formatLink_changed (text : Text) (sel : TextSelection)
    (prefs : FormattingPreferences) (opts : FormattingOptions) :
    (formatLink text sel prefs opts).changed = true := by
  obtain ⟨hft, htl⟩ := resolveTargetSelection_bounds text sel prefs
  have hsl := length_slice text (resolveTargetSelection text sel prefs).«from»
    (resolveTargetSelection text sel prefs).«to» hft htl
  unfold formatLink
  simp only []
  split
  · next fullyWrapped hfull =>
    have hlab := tryUnwrapFullLink_length _ _ hfull
    rw [hsl] at hlab
    simp only [decide_eq_true_eq]
    intro hcon
    have hlen := congrArg List.length hcon
    rw [length_replaceRange text _ _ _ (by omega)] at hlen
    omega
  · split
    · next s hs =>
      exact tryUnwrapLinkAroundSelection_changed text _ s hft htl hs
    · split
      · next heq =>
        simp only [decide_eq_true_eq]
        intro hcon
        have hlen := congrArg List.length hcon
        rw [length_replaceRange text _ _ _ (by omega)] at hlen
        simp only [List.length_append, List.length_cons, List.length_nil] at hlen
        omega
      · next hne =>
        simp only [decide_eq_true_eq]
        intro hcon
        have hlen := congrArg List.length hcon
        rw [length_replaceRange text _ _ _ (by omega)] at hlen
        simp only [List.length_append, List.length_cons, List.length_nil] at hlen
        rw [hsl] at hlen
        omega

/-- The formatting engine always reports `changed` (every branch of every
command strictly changes the text length), so in the orchestrator every
processed range commits an edit descriptor. -/
theorem applyCommandToText_changed (text : Text) (sel : TextSelection)
    (command : FormatCommand) (prefs : FormattingPreferences)
    (opts : FormattingOptions) :
    (applyCommandToText text sel command prefs opts).changed = true := by
  cases command with
  | bold => exact formatMarker_changed text sel _ prefs (by simp)
  | italic =>
    exact formatMarker_changed text sel _ prefs
      (by cases prefs.italicDelimiter <;> simp [italicMarkerOf])
  | strikethrough => exact formatMarker_changed text sel _ prefs (by simp)
  | link => exact formatLink_changed text sel prefs opts

/-- One orchestrator step keeps the overlap guard equal to the minimum start
offset of the committed edits (every processed range commits, by
`applyCommandToText_changed`). -/
theorem orchStep_guard_min (command : FormatCommand) (prefs : FormattingPreferences)
    (opts : FormattingOptions) (st : OrchState) (entry : OrderEntry)
    (h : st.overlapGuard = (st.changes.map Change.«from»).foldl min MAX_SAFE_INTEGER) :
    (orchStep command prefs opts st entry).overlapGuard =
      ((orchStep command prefs opts st entry).changes.map Change.«from»).foldl min
        MAX_SAFE_INTEGER := by
  unfold orchStep
  simp only []
  split
  · exact h
  · simp only []
    rw [if_pos (applyCommandToText_changed st.nextText
      (((st.ranges.get? entry.index).getD ⟨0, 0⟩).toSel) command prefs opts)]
    rw [List.map_append, List.foldl_append, ← h]
    rfl

/-- Over any run, the overlap guard is the minimum start offset of the
committed edits (`MAX_SAFE_INTEGER` when none). -/
theorem orchRun_guard_min (command : FormatCommand) (prefs : FormattingPreferences)
    (opts : FormattingOptions) (l : List OrderEntry) (st : OrchState)
    (h : st.overlapGuard = (st.changes.map Change.«from»).foldl min MAX_SAFE_INTEGER) :
    (l.foldl (orchStep command prefs opts) st).overlapGuard =
      ((l.foldl (orchStep command prefs opts) st).changes.map Change.«from»).foldl min
        MAX_SAFE_INTEGER := by
  induction l generalizing st with
  | nil => exact h
  | cons e es ih => exact ih _ (orchStep_guard_min command prefs opts st e h)

/-- A step skips its entry — leaving everything but the ghost skip log
untouched — exactly when the entry's current end offset strictly exceeds the
overlap guard. -/
theorem orchStep_skip_iff (command : FormatCommand) (prefs : FormattingPreferences)
    (opts : FormattingOptions) (st : OrchState) (entry : OrderEntry) :
    orchStep command prefs opts st entry =
        { st with skippedIndices := st.skippedIndices ++ [entry.index] } ↔
      st.overlapGuard < ((st.ranges.get? entry.index).getD ⟨0, 0⟩).«to» := by
  constructor
  · intro he
    by_contra hnc
    have hpi := congrArg OrchState.processedIndices he
    unfold orchStep at hpi
    simp only [] at hpi
    rw [if_neg hnc] at hpi
    simp only [] at hpi
    have hlen := congrArg List.length hpi
    simp at hlen
  · intro hc
    unfold orchStep
    simp only []
    rw [if_pos hc]

/-- C1 counterexample: in `"a b"` with selection ranges `{0,2}` and `{2,3}`
under `bold`, the edit for `{2,3}` is committed first with start offset 2;
the range `{0,2}`, whose end offset equals that start offset, is NOT skipped:
nothing lands in the skip log, it commits a second edit and its selection is
updated to `{2,4}`. -/
theorem orch_processes_range_touching_prior_edit :
    (applyFormattingToEditor ("a b".toList) [⟨0, 2⟩, ⟨2, 3⟩] 0 .bold
      ⟨.word, .underscore⟩ {}).finalState.skippedIndices = [] ∧
    (applyFormattingToEditor ("a b".toList) [⟨0, 2⟩, ⟨2, 3⟩] 0 .bold
      ⟨.word, .underscore⟩ {}).finalState.changes =
      [⟨2, 3, "**b**".toList⟩, ⟨0, 2, "**a **".toList⟩] ∧
    (applyFormattingToEditor ("a b".toList) [⟨0, 2⟩, ⟨2, 3⟩] 0 .bold
      ⟨.word, .underscore⟩ {}).finalState.ranges = [⟨2, 4⟩, ⟨8, 9⟩] := by
  decide

/-- C1 amended: at every point of an orchestrator run, a range is skipped —
left untouched, producing no edit and no selection update (the loop state is
unchanged apart from the ghost skip log) — exactly when its current end
offset is STRICTLY greater than the overlap guard, and the guard equals the
minimum start offset of the edits already committed further right
(`Number.MAX_SAFE_INTEGER` when none).  A range whose end offset merely
equals a committed edit's start offset is processed, not skipped. -/
theorem orchOverlapGuard_skip (text : Text) (ranges0 : List SelN)
    (command : FormatCommand) (prefs : FormattingPreferences)
    (opts : FormattingOptions) (pre : List OrderEntry) (entry : OrderEntry)
    (post : List OrderEntry)
    (_horder : orderEntries ranges0 = pre ++ entry :: post)
    (st : OrchState)
    (hst : st = pre.foldl (orchStep command prefs opts)
      ⟨text, ranges0, [], [], false, MAX_SAFE_INTEGER, []⟩) :
    (orchStep command prefs opts st entry =
        { st with skippedIndices := st.skippedIndices ++ [entry.index] } ↔
      st.overlapGuard < ((st.ranges.get? entry.index).getD ⟨0, 0⟩).«to») ∧
    st.overlapGuard = (st.changes.map Change.«from»).foldl min MAX_SAFE_INTEGER := by
  refine ⟨orchStep_skip_iff command prefs opts st entry, ?_⟩
  subst hst
  exact orchRun_guard_min command prefs opts pre _ rfl

/-- Witness for C1 (amended): after committing the edit `{2,3}→"**b**"`, the
guard equals its start offset 2. -/
theorem orchOverlapGuard_skip_witness :
    (2 : Nat) = (([⟨2, 3, "**b**".toList⟩] : List Change).map Change.«from»).foldl min
      MAX_SAFE_INTEGER :=
  (orchOverlapGuard_skip ("a b".toList) [⟨0, 2⟩, ⟨2, 3⟩] .bold ⟨.word, .underscore⟩ {}
    [⟨2, 3, 1⟩] ⟨0, 2, 0⟩ [] (by decide) _ rfl).2

/-- C2, evaluated at the failing input: in `"**abcd"` (length 6) with the
touching selection ranges `{2,5}` and `{5,6}` under `bold`, the orchestrator
first wraps `"d"` (edit `{5,6}`), then the outward unwrap of `"abc"` widens
past the guard to the edit `{0,7}`: the dispatched descriptors overlap
(`[0,7)` meets `[5,6)`) and `[0,7)` overruns the pre-mutation document of
length 6 — `ChangeSet.of` in the real code throws a `RangeError` on them. -/
theorem orch_emits_overlapping_changes :
    (applyFormattingToEditor ("**abcd".toList) [⟨2, 5⟩, ⟨5, 6⟩] 0 .bold
        ⟨.word, .underscore⟩ {}).dispatched =
      some ([⟨0, 7, "abc".toList⟩, ⟨5, 6, "**d**".toList⟩], [⟨0, 3⟩, ⟨3, 4⟩], 0) ∧
    ¬ ((7 : Nat) ≤ 5 ∨ (6 : Nat) ≤ 0) ∧
    ("**abcd".toList).length < 7 := by
  decide

end Ognile
